import Mathlib

/-!
Verification of the pull-request preview-table updater
(`actions/status-checker/src/pull-updater.ts`).

Strings are modelled as `List Char`.  JavaScript string primitives
(`indexOf`, `lastIndexOf`, `substring`, `replace` with a string pattern,
`endsWith`, `includes`) are embedded as executable functions on `List Char`.
-/

namespace PullUpdater

/-- The list of all indices `i ≤ s.length` at which `pat` occurs in `s`
(that is, `pat` is a prefix of `s.drop i`), in increasing order. -/
def occurrences (s pat : List Char) : List Nat :=
  (List.range (s.length + 1)).filter (fun i => pat.isPrefixOf (s.drop i))

/-- JavaScript `s.indexOf(pat)`: the least occurrence index, `none` for `-1`. -/
def indexOfSub (s pat : List Char) : Option Nat :=
  (occurrences s pat).head?

/-- JavaScript `s.lastIndexOf(pat)`: the greatest occurrence index, `none` for `-1`. -/
def lastIndexOfSub (s pat : List Char) : Option Nat :=
  (occurrences s pat).getLast?

/-- JavaScript `s.includes(pat)`. -/
def includesSub (s pat : List Char) : Bool :=
  (indexOfSub s pat).isSome

/-- JavaScript `s.replace(pat, repl)` with a string pattern: replace the
first occurrence only (the string unchanged when there is none). -/
def replaceFirst (s pat repl : List Char) : List Char :=
  match indexOfSub s pat with
  | none => s
  | some i => s.take i ++ repl ++ s.drop (i + pat.length)

/-- Decimal digits of a natural number, fuel-driven so that it is
structurally recursive and evaluates by `decide`/`rfl`. -/
def natCharsAux : Nat → Nat → List Char
  | 0, _ => []
  | fuel + 1, n =>
    if n < 10 then [Char.ofNat (48 + n)]
    else natCharsAux fuel (n / 10) ++ [Char.ofNat (48 + n % 10)]

/-- JavaScript number-to-string interpolation for a nonnegative integer. -/
def natChars (n : Nat) : List Char :=
  natCharsAux (n + 1) n

/-! ### Data model

The repository's `types/` directory is not part of the sources; the record
shapes below are modelled from the spec's data model (§3) and the GraphQL
query in `pull-updater.ts`. -/

/-- Modelled from the spec: the change-type enumeration of a file-change
record, `enum{ADDED, CHANGED, MODIFIED, DELETED, RENAMED}` (the `types/ChangeType`
module is absent from the sources). -/
inductive ChangeType where
  | ADDED
  | CHANGED
  | MODIFIED
  | DELETED
  | RENAMED
  deriving DecidableEq, Repr

/-- Modelled from the spec: a file-change record
`{ path, changeType, additions, deletions }`. -/
structure FileChange where
  additions : Nat
  deletions : Nat
  changeType : ChangeType
  path : List Char
  deriving DecidableEq

/-- Modelled from the spec: the GraphQL edge wrapper `NodeOf<T>` with a
single `node` field. -/
structure NodeOf (α : Type) where
  node : α
  deriving DecidableEq

/-- Modelled from the spec: the `files` connection of a pull request,
a page of edges. -/
structure FilesConnection where
  edges : List (NodeOf FileChange)
  deriving DecidableEq

/-- Modelled from the spec: the pull-request snapshot
`{ body, changedFilesCount, files }`. -/
structure Pull where
  body : List Char
  changedFiles : Nat
  files : FilesConnection
  deriving DecidableEq

/-! ### The embedded functions of `pull-updater.ts` -/

def PREVIEW_TABLE_START : List Char := "<!-- PREVIEW-TABLE-START -->".data

def PREVIEW_TABLE_END : List Char := "<!-- PREVIEW-TABLE-END -->".data

/-- `isFileModified` (lines 92–96). -/
def isFileModified (e : NodeOf FileChange) : Bool :=
  e.node.changeType == ChangeType.ADDED
    || e.node.changeType == ChangeType.CHANGED
    || e.node.changeType == ChangeType.MODIFIED

/-- `isPullRequestModifyingMarkdownFiles` (lines 98–105). -/
def isPullRequestModifyingMarkdownFiles (pr : Pull) : Bool :=
  decide (0 < pr.changedFiles)
    && decide (0 < pr.files.edges.length)
    && pr.files.edges.any (fun e => isFileModified e && ".md".data.isSuffixOf e.node.path)

/-- `getModifiedMarkdownFiles` (lines 107–111). -/
def getModifiedMarkdownFiles (pr : Pull) : List (List Char) :=
  (pr.files.edges.filter
      (fun e => ".md".data.isSuffixOf e.node.path && isFileModified e)).map
    (fun e => e.node.path)

/-- The `toLink` closure inside `buildMarkdownPreviewTable` (lines 117–120). -/
def toLink (prNumber : Nat) (file : List Char) : List Char :=
  let path := replaceFirst (replaceFirst file "docs/".data "".data) ".md".data "".data
  "https://review.learn.microsoft.com/en-us/dotnet/".data ++ path
    ++ "?branch=pr-en-us-".data ++ natChars prNumber

/-- `Map.set` on an insertion-ordered association list: an existing key keeps
its position and has its value overwritten, a new key is appended. -/
def mapSet (m : List (List Char × List Char)) (k v : List Char) :
    List (List Char × List Char) :=
  if m.any (fun p => p.1 = k) then
    m.map (fun p => if p.1 = k then (k, v) else p)
  else
    m ++ [(k, v)]

/-- The lexicographic-order sort of the file list
(`files.sort((a, b) => a.localeCompare(b))`, line 123), embedded with the
linear order on `List Char`. -/
def sortFiles (files : List (List Char)) : List (List Char) :=
  files.insertionSort (· ≤ ·)

/-- The `links` map after the `forEach` loop (lines 122–125): insert each
sorted file with its link, in order. -/
def previewLinks (prNumber : Nat) (files : List (List Char)) :
    List (List Char × List Char) :=
  (sortFiles files).foldl (fun m file => mapSet m file (toLink prNumber file)) []

/-- One rendered table row (line 131). -/
def tableRow (file link : List Char) : List Char :=
  "| 📄 _".data ++ file ++ "_ | 🔗 [Preview: ".data
    ++ replaceFirst file ".md".data "".data ++ "](".data ++ link ++ ") |\n".data

/-- `buildMarkdownPreviewTable` (lines 113–135). -/
def buildMarkdownPreviewTable (prNumber : Nat) (files : List (List Char)) :
    List Char :=
  (previewLinks prNumber files).foldl
    (fun acc p => acc ++ tableRow p.1 p.2)
    ("| File | Preview |\n".data ++ "|:--|:--|\n".data)

/-- `replaceExistingTable` (lines 137–154). -/
def replaceExistingTable (body table : List Char) : List Char :=
  match indexOfSub body PREVIEW_TABLE_START with
  | none => "Unable to parse starting index of existing markdown table.".data
  | some startIndex =>
    match lastIndexOfSub body PREVIEW_TABLE_END with
    | none => "Unable to parse ending index of existing markdown table.".data
    | some endIndex =>
      let start := body.take (startIndex + PREVIEW_TABLE_START.length)
      let tail := body.drop endIndex
      start ++ "\n\n".data ++ table ++ "\n\n".data ++ tail

/-- `appendTable` (lines 156–160). -/
def appendTable (body table : List Char) : List Char :=
  body ++ "\n\n".data ++ table

/-! ### The top-level flow

`tryUpdatePullRequestBody` (lines 12–65) is effectful: it fetches the pull
request, decides, and possibly issues one update call.  The decision
structure is embedded as a pure function from the fetch result to an
outcome; `updated` carries the body an update call would write. -/

inductive FlowOutcome where
  | noDetails
  | noPullRequest
  | noFilesChanged
  | noMarkdownFiles
  | updated (body : List Char)
  deriving DecidableEq

/-- The decision structure of `tryUpdatePullRequestBody` (lines 12–65):
`details` models the fetch result (`none` when no usable response, `some none`
when the response lacks a pull request). -/
def tryUpdatePullRequestBody (prNumber : Nat) (details : Option (Option Pull)) :
    FlowOutcome :=
  match details with
  | none => FlowOutcome.noDetails
  | some none => FlowOutcome.noPullRequest
  | some (some pr) =>
    if pr.changedFiles = 0 then
      FlowOutcome.noFilesChanged
    else if isPullRequestModifyingMarkdownFiles pr = false then
      FlowOutcome.noMarkdownFiles
    else
      let modifiedMarkdownFiles := getModifiedMarkdownFiles pr
      let markdownTable := buildMarkdownPreviewTable prNumber modifiedMarkdownFiles
      if includesSub pr.body PREVIEW_TABLE_START
          && includesSub pr.body PREVIEW_TABLE_END then
        FlowOutcome.updated (replaceExistingTable pr.body markdownTable)
      else
        FlowOutcome.updated (appendTable pr.body markdownTable)

/-- Whether an outcome reaches the pull-request update operation. -/
def issuesUpdate : FlowOutcome → Bool
  | FlowOutcome.updated _ => true
  | _ => false

/-- Spec-level substring containment: `pat` occurs somewhere inside `s`. -/
def ContainsSub (s pat : List Char) : Prop :=
  ∃ l r, s = l ++ pat ++ r

/-! ### Occurrence lemmas -/

theorem isPrefixOf_iff_exists : ∀ {p s : List Char}, p.isPrefixOf s = true ↔ ∃ t, s = p ++ t
  | [], s => by simp [List.isPrefixOf]
  | a :: p, [] => by simp [List.isPrefixOf]
  | a :: p, b :: s => by
    simp only [List.isPrefixOf, Bool.and_eq_true, beq_iff_eq, List.cons_append,
      List.cons.injEq]
    rw [isPrefixOf_iff_exists]
    constructor
    · rintro ⟨rfl, t, rfl⟩
      exact ⟨t, rfl, rfl⟩
    · rintro ⟨t, rfl, rfl⟩
      exact ⟨rfl, t, rfl⟩

theorem mem_occurrences {s pat : List Char} {i : Nat} :
    i ∈ occurrences s pat ↔ i < s.length + 1 ∧ pat.isPrefixOf (s.drop i) = true := by
  simp [occurrences, List.mem_filter, List.mem_range]

theorem occurrences_pairwise (s pat : List Char) :
    (occurrences s pat).Pairwise (· < ·) :=
  (List.pairwise_lt_range _).sublist (List.filter_sublist _)

theorem head?_min_of_pairwise_lt {l : List Nat} (hl : l.Pairwise (· < ·))
    {a : Nat} (ha : l.head? = some a) {b : Nat} (hb : b ∈ l) : a ≤ b := by
  cases l with
  | nil => simp at ha
  | cons x t =>
    simp only [List.head?_cons, Option.some.injEq] at ha
    subst ha
    rcases List.mem_cons.mp hb with rfl | h
    · exact le_refl _
    · exact le_of_lt ((List.pairwise_cons.mp hl).1 _ h)

theorem getLast?_max_of_pairwise_lt : ∀ {l : List Nat}, l.Pairwise (· < ·) →
    ∀ {a : Nat}, l.getLast? = some a → a ∈ l ∧ ∀ b ∈ l, b ≤ a := by
  intro l
  induction l with
  | nil => intro _ a ha; simp at ha
  | cons x t ih =>
    intro hl a ha
    cases t with
    | nil =>
      simp only [List.getLast?_singleton, Option.some.injEq] at ha
      subst ha
      simp
    | cons y t' =>
      rw [List.getLast?_cons_cons] at ha
      obtain ⟨hmem, hmax⟩ := ih (List.pairwise_cons.mp hl).2 ha
      refine ⟨List.mem_cons_of_mem _ hmem, ?_⟩
      intro b hb
      rcases List.mem_cons.mp hb with rfl | hb'
      · exact le_of_lt ((List.pairwise_cons.mp hl).1 _ hmem)
      · exact hmax b hb'

theorem le_length_of_isPrefixOf_drop {s pat : List Char} {i : Nat} (hne : pat ≠ [])
    (h : pat.isPrefixOf (s.drop i) = true) : i ≤ s.length := by
  by_contra hgt
  push_neg at hgt
  rw [List.drop_eq_nil_of_le (le_of_lt hgt)] at h
  obtain ⟨t, ht⟩ := isPrefixOf_iff_exists.mp h
  cases pat with
  | nil => exact hne rfl
  | cons a p => simp at ht

theorem indexOfSub_eq_some {s pat : List Char} {i : Nat} (h : indexOfSub s pat = some i) :
    pat.isPrefixOf (s.drop i) = true ∧ ∀ k, k < i → pat.isPrefixOf (s.drop k) = false := by
  have hmem : i ∈ occurrences s pat := by
    unfold indexOfSub at h
    cases hc : occurrences s pat with
    | nil => rw [hc] at h; simp at h
    | cons x t =>
      rw [hc] at h
      simp only [List.head?_cons, Option.some.injEq] at h
      subst h
      exact List.mem_cons_self _ _
  obtain ⟨hlt, hp⟩ := mem_occurrences.mp hmem
  refine ⟨hp, ?_⟩
  intro k hk
  cases hb : pat.isPrefixOf (s.drop k) with
  | false => rfl
  | true =>
    exfalso
    have hkmem : k ∈ occurrences s pat :=
      mem_occurrences.mpr ⟨Nat.lt_trans hk hlt, hb⟩
    have : i ≤ k := head?_min_of_pairwise_lt (occurrences_pairwise s pat) h hkmem
    omega

theorem indexOfSub_eq_some_of {s pat : List Char} {i : Nat}
    (hle : i ≤ s.length)
    (hp : pat.isPrefixOf (s.drop i) = true)
    (hmin : ∀ k, k < i → pat.isPrefixOf (s.drop k) = false) :
    indexOfSub s pat = some i := by
  have hmem : i ∈ occurrences s pat :=
    mem_occurrences.mpr ⟨Nat.lt_succ_of_le hle, hp⟩
  unfold indexOfSub
  cases hc : occurrences s pat with
  | nil => rw [hc] at hmem; simp at hmem
  | cons x t =>
    have hxmem : x ∈ occurrences s pat := by
      rw [hc]; exact List.mem_cons_self _ _
    have hxle : x ≤ i := by
      refine head?_min_of_pairwise_lt (occurrences_pairwise s pat) ?_ hmem
      rw [hc]; rfl
    have hxi : x = i := by
      rcases Nat.lt_or_ge x i with hlt | hge
      · exfalso
        have := hmin x hlt
        have := (mem_occurrences.mp hxmem).2
        simp_all
      · omega
    rw [List.head?_cons, hxi]

theorem lastIndexOfSub_eq_some {s pat : List Char} {j : Nat}
    (h : lastIndexOfSub s pat = some j) :
    j ≤ s.length ∧ pat.isPrefixOf (s.drop j) = true
      ∧ ∀ k, k ≤ s.length → pat.isPrefixOf (s.drop k) = true → k ≤ j := by
  obtain ⟨hmem, hmax⟩ := getLast?_max_of_pairwise_lt (occurrences_pairwise s pat) h
  obtain ⟨hlt, hp⟩ := mem_occurrences.mp hmem
  refine ⟨Nat.lt_succ_iff.mp hlt, hp, ?_⟩
  intro k hk hkp
  exact hmax k (mem_occurrences.mpr ⟨Nat.lt_succ_of_le hk, hkp⟩)

theorem lastIndexOfSub_eq_some_of {s pat : List Char} {j : Nat}
    (hle : j ≤ s.length)
    (hp : pat.isPrefixOf (s.drop j) = true)
    (hmax : ∀ k, k ≤ s.length → pat.isPrefixOf (s.drop k) = true → k ≤ j) :
    lastIndexOfSub s pat = some j := by
  have hmem : j ∈ occurrences s pat :=
    mem_occurrences.mpr ⟨Nat.lt_succ_of_le hle, hp⟩
  unfold lastIndexOfSub
  cases hc : (occurrences s pat).getLast? with
  | none =>
    exfalso
    rw [List.getLast?_eq_none_iff] at hc
    rw [hc] at hmem
    simp at hmem
  | some b =>
    obtain ⟨hbmem, hbmax⟩ := getLast?_max_of_pairwise_lt (occurrences_pairwise s pat) hc
    obtain ⟨hblt, hbp⟩ := mem_occurrences.mp hbmem
    have hbj : b ≤ j := hmax b (Nat.lt_succ_iff.mp hblt) hbp
    have hjb : j ≤ b := hbmax j hmem
    rw [Nat.le_antisymm hbj hjb]

theorem includesSub_iff_containsSub {s pat : List Char} :
    includesSub s pat = true ↔ ContainsSub s pat := by
  constructor
  · intro h
    rw [includesSub, Option.isSome_iff_exists] at h
    obtain ⟨i, hi⟩ := h
    obtain ⟨hp, -⟩ := indexOfSub_eq_some hi
    obtain ⟨t, ht⟩ := isPrefixOf_iff_exists.mp hp
    refine ⟨s.take i, t, ?_⟩
    rw [List.append_assoc, ← ht, List.take_append_drop]
  · rintro ⟨l, r, rfl⟩
    have hp : pat.isPrefixOf (((l ++ pat) ++ r).drop l.length) = true := by
      rw [List.append_assoc, List.drop_left]
      exact isPrefixOf_iff_exists.mpr ⟨r, rfl⟩
    have hmem : l.length ∈ occurrences ((l ++ pat) ++ r) pat := by
      refine mem_occurrences.mpr ⟨?_, hp⟩
      simp [List.length_append]
      omega
    rw [includesSub, indexOfSub]
    cases hc : occurrences ((l ++ pat) ++ r) pat with
    | nil => rw [hc] at hmem; simp at hmem
    | cons x t => simp

/-! ### Map and sort lemmas -/

theorem map_fst_mapSet (m : List (List Char × List Char)) (k v : List Char) :
    (mapSet m k v).map Prod.fst
      = if k ∈ m.map Prod.fst then m.map Prod.fst else m.map Prod.fst ++ [k] := by
  have hany : (m.any (fun p => p.1 = k)) = true ↔ k ∈ m.map Prod.fst := by
    simp [List.any_eq_true, List.mem_map]
  unfold mapSet
  by_cases h : k ∈ m.map Prod.fst
  · rw [if_pos (hany.mpr h), if_pos h, List.map_map]
    apply List.map_congr_left
    intro p _
    by_cases hpk : p.1 = k
    · simp [hpk]
    · simp [hpk]
  · rw [if_neg (fun hc => h (hany.mp hc)), if_neg h, List.map_append]
    rfl

theorem mapSet_values {g : List Char → List Char} {m : List (List Char × List Char)}
    (hm : ∀ p ∈ m, p.2 = g p.1) (k : List Char) :
    ∀ p ∈ mapSet m k (g k), p.2 = g p.1 := by
  intro p hp
  unfold mapSet at hp
  by_cases h : (m.any (fun p => p.1 = k)) = true
  · rw [if_pos h] at hp
    obtain ⟨q, hq, hqp⟩ := List.mem_map.mp hp
    by_cases hqk : q.1 = k
    · rw [if_pos hqk] at hqp
      subst hqp
      rfl
    · rw [if_neg hqk] at hqp
      subst hqp
      exact hm q hq
  · rw [if_neg h] at hp
    rcases List.mem_append.mp hp with hin | hone
    · exact hm p hin
    · simp only [List.mem_singleton] at hone
      subst hone
      rfl

theorem foldl_mapSet_invariant (g : List Char → List Char) :
    ∀ (l : List (List Char)) (m : List (List Char × List Char)),
      l.Sorted (· ≤ ·) →
      ((m.map Prod.fst).Sorted (· < ·)) →
      (∀ x ∈ l, ∀ k ∈ m.map Prod.fst, k ≤ x) →
      (∀ p ∈ m, p.2 = g p.1) →
      (((l.foldl (fun m f => mapSet m f (g f)) m).map Prod.fst).Sorted (· < ·)
        ∧ (∀ q, q ∈ (l.foldl (fun m f => mapSet m f (g f)) m).map Prod.fst
            ↔ q ∈ m.map Prod.fst ∨ q ∈ l)
        ∧ (∀ p ∈ l.foldl (fun m f => mapSet m f (g f)) m, p.2 = g p.1)) := by
  intro l
  induction l with
  | nil =>
    intro m _ hm _ hv
    refine ⟨hm, ?_, hv⟩
    intro q
    simp
  | cons a t ih =>
    intro m hl hm hb hv
    rw [List.foldl_cons]
    have hla : ∀ x ∈ t, a ≤ x := (List.sorted_cons.mp hl).1
    have hlt : t.Sorted (· ≤ ·) := (List.sorted_cons.mp hl).2
    have hka : ∀ k ∈ m.map Prod.fst, k ≤ a :=
      fun k hk => hb a (List.mem_cons_self _ _) k hk
    have hm' : ((mapSet m a (g a)).map Prod.fst).Sorted (· < ·) := by
      rw [map_fst_mapSet]
      by_cases hmem : a ∈ m.map Prod.fst
      · rw [if_pos hmem]; exact hm
      · rw [if_neg hmem]
        rw [List.Sorted, List.pairwise_append]
        refine ⟨hm, List.pairwise_singleton _ _, ?_⟩
        intro k hk b hbmem
        simp only [List.mem_singleton] at hbmem
        subst hbmem
        exact lt_of_le_of_ne (hka k hk) (fun he => hmem (he ▸ hk))
    have hmemset : ∀ q, q ∈ (mapSet m a (g a)).map Prod.fst
        ↔ q ∈ m.map Prod.fst ∨ q = a := by
      intro q
      rw [map_fst_mapSet]
      by_cases hmem : a ∈ m.map Prod.fst
      · rw [if_pos hmem]
        constructor
        · exact Or.inl
        · rintro (h | rfl)
          · exact h
          · exact hmem
      · rw [if_neg hmem]
        simp [List.mem_append]
    have hb' : ∀ x ∈ t, ∀ k ∈ (mapSet m a (g a)).map Prod.fst, k ≤ x := by
      intro x hx k hk
      rcases (hmemset k).mp hk with hold | rfl
      · exact le_trans (hka k hold) (hla x hx)
      · exact hla x hx
    obtain ⟨hs, hmem, hval⟩ := ih (mapSet m a (g a)) hlt hm' hb' (mapSet_values hv a)
    refine ⟨hs, ?_, hval⟩
    intro q
    rw [hmem q, hmemset q, List.mem_cons]
    tauto

theorem previewLinks_keys (n : Nat) (files : List (List Char)) :
    (((previewLinks n files).map Prod.fst).Sorted (· < ·))
      ∧ (∀ q, q ∈ (previewLinks n files).map Prod.fst ↔ q ∈ files)
      ∧ (∀ p ∈ previewLinks n files, p.2 = toLink n p.1) := by
  obtain ⟨hs, hmem, hval⟩ :=
    foldl_mapSet_invariant (toLink n) (sortFiles files) []
      (List.sorted_insertionSort _ _)
      (by simp [List.Sorted])
      (by simp)
      (by simp)
  refine ⟨hs, ?_, hval⟩
  intro q
  rw [previewLinks] at *
  rw [hmem q]
  simp [sortFiles, List.mem_insertionSort]

theorem entries_eq_keys_map {g : List Char → List Char} :
    ∀ {m : List (List Char × List Char)}, (∀ p ∈ m, p.2 = g p.1) →
      m = (m.map Prod.fst).map (fun k => (k, g k)) := by
  intro m
  induction m with
  | nil => intro _; rfl
  | cons p t ih =>
    intro h
    have hp : p.2 = g p.1 := h p (List.mem_cons_self _ _)
    have ht : t = (t.map Prod.fst).map (fun k => (k, g k)) :=
      ih (fun q hq => h q (List.mem_cons_of_mem _ hq))
    calc p :: t = (p.1, p.2) :: t := by rw [Prod.mk.eta]
    _ = (p.1, g p.1) :: ((t.map Prod.fst).map (fun k => (k, g k))) := by rw [hp, ← ht]
    _ = ((p :: t).map Prod.fst).map (fun k => (k, g k)) := by simp

theorem indexOfSub_none_iff {s pat : List Char} :
    indexOfSub s pat = none ↔ occurrences s pat = [] := by
  rw [indexOfSub, List.head?_eq_none_iff]

theorem lastIndexOfSub_none_iff {s pat : List Char} :
    lastIndexOfSub s pat = none ↔ occurrences s pat = [] := by
  rw [lastIndexOfSub, List.getLast?_eq_none_iff]

theorem isFileModified_eq_true_iff (e : NodeOf FileChange) :
    isFileModified e = true ↔
      (e.node.changeType = ChangeType.ADDED ∨ e.node.changeType = ChangeType.CHANGED
        ∨ e.node.changeType = ChangeType.MODIFIED) := by
  obtain ⟨⟨add, del, ct, path⟩⟩ := e
  cases ct <;> simp [isFileModified]

/-! ### The claims -/

/-- Claim C4: for every body string that contains neither sentinel and every
table string, `appendTable body table` equals `body ++ "\n\n" ++ table`. -/
theorem claim_C4_appendTable (body table : List Char)
    (h1 : includesSub body PREVIEW_TABLE_START = false)
    (h2 : includesSub body PREVIEW_TABLE_END = false) :
    appendTable body table = body ++ "\n\n".data ++ table := rfl

theorem claim_C4_appendTable_witness :
    appendTable "Hello".data "T".data = "Hello".data ++ "\n\n".data ++ "T".data :=
  claim_C4_appendTable "Hello".data "T".data (by decide) (by decide)

/-- Claim C5: `isFileModified` returns true exactly for change types ADDED,
CHANGED and MODIFIED, and false for every other change type (DELETED, RENAMED
in the modelled enumeration). -/
theorem claim_C5_isFileModified (e : NodeOf FileChange) :
    (isFileModified e = true ↔
      (e.node.changeType = ChangeType.ADDED ∨ e.node.changeType = ChangeType.CHANGED
        ∨ e.node.changeType = ChangeType.MODIFIED))
    ∧ (isFileModified e = false ↔
      (e.node.changeType = ChangeType.DELETED
        ∨ e.node.changeType = ChangeType.RENAMED)) := by
  obtain ⟨⟨add, del, ct, path⟩⟩ := e
  cases ct <;> simp [isFileModified]

/-- Claim C6: for pull number 34443 and path
`docs/orleans/resources/nuget-packages.md`, the table builder's link is the
documented review URL. -/
theorem claim_C6_toLink_example :
    toLink 34443 "docs/orleans/resources/nuget-packages.md".data
      = "https://review.learn.microsoft.com/en-us/dotnet/orleans/resources/nuget-packages?branch=pr-en-us-34443".data := by
  decide

/-- Claim C7: when the start sentinel is absent, `replaceExistingTable`
returns the starting-index diagnostic string; when the start sentinel is
present but the end sentinel is absent, it returns the ending-index
diagnostic string. -/
theorem claim_C7_diagnostics (body table : List Char) :
    (includesSub body PREVIEW_TABLE_START = false →
      replaceExistingTable body table
        = "Unable to parse starting index of existing markdown table.".data)
    ∧ (includesSub body PREVIEW_TABLE_START = true →
      includesSub body PREVIEW_TABLE_END = false →
      replaceExistingTable body table
        = "Unable to parse ending index of existing markdown table.".data) := by
  constructor
  · intro h
    have hn : indexOfSub body PREVIEW_TABLE_START = none := by
      cases hc : indexOfSub body PREVIEW_TABLE_START with
      | none => rfl
      | some i => rw [includesSub, hc] at h; simp at h
    rw [replaceExistingTable, hn]
  · intro h1 h2
    have hn : indexOfSub body PREVIEW_TABLE_END = none := by
      cases hc : indexOfSub body PREVIEW_TABLE_END with
      | none => rfl
      | some i => rw [includesSub, hc] at h2; simp at h2
    have hln : lastIndexOfSub body PREVIEW_TABLE_END = none :=
      lastIndexOfSub_none_iff.mpr (indexOfSub_none_iff.mp hn)
    rw [includesSub, Option.isSome_iff_exists] at h1
    obtain ⟨i, hi⟩ := h1
    rw [replaceExistingTable, hi, hln]

theorem claim_C7_diagnostics_witness :
    replaceExistingTable "no sentinels here".data "T".data
        = "Unable to parse starting index of existing markdown table.".data
    ∧ replaceExistingTable "A <!-- PREVIEW-TABLE-START --> B".data "T".data
        = "Unable to parse ending index of existing markdown table.".data :=
  ⟨(claim_C7_diagnostics "no sentinels here".data "T".data).1 (by decide),
    (claim_C7_diagnostics "A <!-- PREVIEW-TABLE-START --> B".data "T".data).2
      (by decide) (by decide)⟩

/-- Claim C8: a snapshot whose changed-file count is zero makes the top-level
flow return early; the pull-request update operation is never reached. -/
theorem claim_C8_zero_changed_files_no_update (n : Nat) (pr : Pull)
    (h : pr.changedFiles = 0) :
    tryUpdatePullRequestBody n (some (some pr)) = FlowOutcome.noFilesChanged
      ∧ issuesUpdate (tryUpdatePullRequestBody n (some (some pr))) = false := by
  have heq : tryUpdatePullRequestBody n (some (some pr)) = FlowOutcome.noFilesChanged := by
    simp only [tryUpdatePullRequestBody]
    rw [if_pos h]
  exact ⟨heq, by rw [heq]; rfl⟩

theorem claim_C8_zero_changed_files_no_update_witness :
    tryUpdatePullRequestBody 1 (some (some ⟨[], 0, ⟨[]⟩⟩)) = FlowOutcome.noFilesChanged
      ∧ issuesUpdate (tryUpdatePullRequestBody 1 (some (some ⟨[], 0, ⟨[]⟩⟩))) = false :=
  claim_C8_zero_changed_files_no_update 1 ⟨[], 0, ⟨[]⟩⟩ rfl

/-- Claim C9: the link computation removes the first occurrence of `docs/`
and the first occurrence of `.md` anywhere in the path, not a trailing-suffix
strip: on `docs/a.md-notes/b.md` the interior `.md` is removed while the
trailing `.md` is retained, in both the URL path and the displayed row
label (`file.replace('.md', '')`). -/
theorem claim_C9_replaceFirst_occurrence :
    toLink 5 "docs/a.md-notes/b.md".data
        = "https://review.learn.microsoft.com/en-us/dotnet/a-notes/b.md?branch=pr-en-us-5".data
      ∧ replaceFirst "docs/a.md-notes/b.md".data ".md".data "".data
        = "docs/a-notes/b.md".data
      ∧ ".md".data.isSuffixOf
          (replaceFirst (replaceFirst "docs/a.md-notes/b.md".data "docs/".data "".data)
            ".md".data "".data) = true
      ∧ ".md".data.isSuffixOf
          (replaceFirst "docs/a.md-notes/b.md".data ".md".data "".data) = true
      ∧ toLink 5 "docs/a.md-notes/b.md".data
        ≠ "https://review.learn.microsoft.com/en-us/dotnet/a.md-notes/b?branch=pr-en-us-5".data := by
  decide

/-- Claim C1: for a body containing both sentinels, `replaceExistingTable`
keeps the text up to and including the first occurrence of the start sentinel
(`i` below is that occurrence) and the text from the last occurrence of the
end sentinel (`j` below) onward, with exactly the table and blank-line
padding in between. -/
theorem claim_C1_replaceExistingTable_splice (body table : List Char) (i j : Nat)
    (hp : PREVIEW_TABLE_START.isPrefixOf (body.drop i) = true)
    (hmin : ∀ k, k < i → PREVIEW_TABLE_START.isPrefixOf (body.drop k) = false)
    (hj : j ≤ body.length)
    (hq : PREVIEW_TABLE_END.isPrefixOf (body.drop j) = true)
    (hmax : ∀ k, k ≤ body.length → PREVIEW_TABLE_END.isPrefixOf (body.drop k) = true →
      k ≤ j) :
    replaceExistingTable body table
      = body.take (i + PREVIEW_TABLE_START.length)
          ++ "\n\n".data ++ table ++ "\n\n".data ++ body.drop j := by
  have hi : indexOfSub body PREVIEW_TABLE_START = some i :=
    indexOfSub_eq_some_of (le_length_of_isPrefixOf_drop (by decide) hp) hp hmin
  have hj' : lastIndexOfSub body PREVIEW_TABLE_END = some j :=
    lastIndexOfSub_eq_some_of hj hq hmax
  rw [replaceExistingTable, hi, hj']

theorem claim_C1_replaceExistingTable_splice_witness :
    replaceExistingTable
        "A <!-- PREVIEW-TABLE-START --> old <!-- PREVIEW-TABLE-END --> Z".data
        "T".data
      = ("A <!-- PREVIEW-TABLE-START --> old <!-- PREVIEW-TABLE-END --> Z".data).take
            (2 + PREVIEW_TABLE_START.length)
          ++ "\n\n".data ++ "T".data ++ "\n\n".data
          ++ ("A <!-- PREVIEW-TABLE-START --> old <!-- PREVIEW-TABLE-END --> Z".data).drop 35 :=
  claim_C1_replaceExistingTable_splice
    "A <!-- PREVIEW-TABLE-START --> old <!-- PREVIEW-TABLE-END --> Z".data
    "T".data 2 35 (by decide) (by decide) (by decide) (by decide) (by decide)

/-- Claim C10: under the caller's guard (the body `includes` both sentinel
literals), neither index search in `replaceExistingTable` can fail, and the
function returns the spliced body, never a diagnostic string. -/
theorem claim_C10_guard_no_diagnostics (body table : List Char)
    (h1 : includesSub body PREVIEW_TABLE_START = true)
    (h2 : includesSub body PREVIEW_TABLE_END = true) :
    (indexOfSub body PREVIEW_TABLE_START).isSome = true
      ∧ (lastIndexOfSub body PREVIEW_TABLE_END).isSome = true
      ∧ replaceExistingTable body table
        = body.take ((indexOfSub body PREVIEW_TABLE_START).getD 0
              + PREVIEW_TABLE_START.length)
            ++ "\n\n".data ++ table ++ "\n\n".data
            ++ body.drop ((lastIndexOfSub body PREVIEW_TABLE_END).getD 0) := by
  rw [includesSub, Option.isSome_iff_exists] at h1 h2
  obtain ⟨i, hi⟩ := h1
  obtain ⟨i', hi'⟩ := h2
  have hne : occurrences body PREVIEW_TABLE_END ≠ [] := by
    intro hc
    rw [indexOfSub_none_iff.mpr hc] at hi'
    exact Option.noConfusion hi'
  obtain ⟨j, hj⟩ : ∃ j, lastIndexOfSub body PREVIEW_TABLE_END = some j := by
    cases hc : lastIndexOfSub body PREVIEW_TABLE_END with
    | none => exact absurd (lastIndexOfSub_none_iff.mp hc) hne
    | some j => exact ⟨j, rfl⟩
  refine ⟨by rw [hi]; rfl, by rw [hj]; rfl, ?_⟩
  rw [replaceExistingTable, hi, hj]
  rfl

theorem claim_C10_guard_no_diagnostics_witness :
    (indexOfSub "<!-- PREVIEW-TABLE-START -->x<!-- PREVIEW-TABLE-END -->".data
        PREVIEW_TABLE_START).isSome = true
      ∧ (lastIndexOfSub "<!-- PREVIEW-TABLE-START -->x<!-- PREVIEW-TABLE-END -->".data
          PREVIEW_TABLE_END).isSome = true
      ∧ replaceExistingTable
          "<!-- PREVIEW-TABLE-START -->x<!-- PREVIEW-TABLE-END -->".data "U".data
        = ("<!-- PREVIEW-TABLE-START -->x<!-- PREVIEW-TABLE-END -->".data).take
              ((indexOfSub "<!-- PREVIEW-TABLE-START -->x<!-- PREVIEW-TABLE-END -->".data
                  PREVIEW_TABLE_START).getD 0 + PREVIEW_TABLE_START.length)
            ++ "\n\n".data ++ "U".data ++ "\n\n".data
            ++ ("<!-- PREVIEW-TABLE-START -->x<!-- PREVIEW-TABLE-END -->".data).drop
              ((lastIndexOfSub "<!-- PREVIEW-TABLE-START -->x<!-- PREVIEW-TABLE-END -->".data
                  PREVIEW_TABLE_END).getD 0) :=
  claim_C10_guard_no_diagnostics
    "<!-- PREVIEW-TABLE-START -->x<!-- PREVIEW-TABLE-END -->".data "U".data
    (by decide) (by decide)

/-- Claim C2: the paths appearing as rows of the preview table are exactly
the snapshot's file paths ending in `.md` whose change type is ADDED, CHANGED
or MODIFIED, sorted lexicographically and with one row per distinct path. -/
theorem claim_C2_table_rows (n : Nat) (pr : Pull) :
    (∀ p, p ∈ (previewLinks n (getModifiedMarkdownFiles pr)).map Prod.fst
      ↔ ∃ e, e ∈ pr.files.edges ∧ e.node.path = p
          ∧ ".md".data.isSuffixOf p = true
          ∧ (e.node.changeType = ChangeType.ADDED
              ∨ e.node.changeType = ChangeType.CHANGED
              ∨ e.node.changeType = ChangeType.MODIFIED))
    ∧ ((previewLinks n (getModifiedMarkdownFiles pr)).map Prod.fst).Sorted (· ≤ ·)
    ∧ ((previewLinks n (getModifiedMarkdownFiles pr)).map Prod.fst).Nodup := by
  obtain ⟨hs, hmem, -⟩ := previewLinks_keys n (getModifiedMarkdownFiles pr)
  refine ⟨?_, hs.imp (fun h => le_of_lt h), hs.imp (fun h => ne_of_lt h)⟩
  intro p
  rw [hmem p]
  simp only [getModifiedMarkdownFiles, List.mem_map, List.mem_filter,
    Bool.and_eq_true]
  constructor
  · rintro ⟨e, ⟨he, hsuf, hmod⟩, rfl⟩
    exact ⟨e, he, rfl, hsuf, (isFileModified_eq_true_iff e).mp hmod⟩
  · rintro ⟨e, he, rfl, hsuf, hmod⟩
    exact ⟨e, ⟨he, hsuf, (isFileModified_eq_true_iff e).mpr hmod⟩, rfl⟩

/-- Claim C3: `buildMarkdownPreviewTable` produces byte-identical output on
any two file lists that are equal as sets, regardless of ordering or
duplication. -/
theorem claim_C3_build_table_set_invariant (n : Nat) (l₁ l₂ : List (List Char))
    (h : ∀ x, x ∈ l₁ ↔ x ∈ l₂) :
    buildMarkdownPreviewTable n l₁ = buildMarkdownPreviewTable n l₂ := by
  obtain ⟨hs₁, hmem₁, hval₁⟩ := previewLinks_keys n l₁
  obtain ⟨hs₂, hmem₂, hval₂⟩ := previewLinks_keys n l₂
  have hnd₁ : ((previewLinks n l₁).map Prod.fst).Nodup := hs₁.imp (fun h => ne_of_lt h)
  have hnd₂ : ((previewLinks n l₂).map Prod.fst).Nodup := hs₂.imp (fun h => ne_of_lt h)
  have hmm : ∀ q, q ∈ (previewLinks n l₁).map Prod.fst
      ↔ q ∈ (previewLinks n l₂).map Prod.fst := by
    intro q
    rw [hmem₁ q, h q, ← hmem₂ q]
  have hperm := (List.perm_ext_iff_of_nodup hnd₁ hnd₂).mpr hmm
  haveI : IsAntisymm (List Char) (· < ·) :=
    ⟨fun a b h1 h2 => absurd (lt_trans h1 h2) (lt_irrefl a)⟩
  have hkeys : (previewLinks n l₁).map Prod.fst = (previewLinks n l₂).map Prod.fst :=
    List.eq_of_perm_of_sorted hperm hs₁ hs₂
  have hlinks : previewLinks n l₁ = previewLinks n l₂ := by
    rw [entries_eq_keys_map hval₁, entries_eq_keys_map hval₂, hkeys]
  rw [buildMarkdownPreviewTable, buildMarkdownPreviewTable, hlinks]

theorem claim_C3_build_table_set_invariant_witness :
    buildMarkdownPreviewTable 3 ["docs/a.md".data, "docs/b.md".data]
      = buildMarkdownPreviewTable 3
          ["docs/b.md".data, "docs/a.md".data, "docs/a.md".data] :=
  claim_C3_build_table_set_invariant 3
    ["docs/a.md".data, "docs/b.md".data]
    ["docs/b.md".data, "docs/a.md".data, "docs/a.md".data]
    (by intro x; simp [List.mem_cons]; tauto)

end PullUpdater
